import Mathlib

/-!
Shallow embedding of `pycircstat2/distribution.py` (circular probability
distributions) and verification of its specified behaviour.

Conventions of the embedding:
* Python floats are modelled by `ℝ`; `numpy` trigonometric and exponential
  functions by their Mathlib counterparts.
* `scipy.integrate.quad`/`quad_vec` return a `(value, error-estimate)` pair;
  they are modelled as the exact interval integral paired with error 0
  (the adaptive quadrature idealised as exact).
* `scipy.special.i0`/`i1` (modified Bessel functions) are modelled by their
  standard integral representations.
* `scipy.optimize.root` applied to the strictly monotone one-dimensional
  functions of this file is modelled as the exact root, obtained by choice
  from an intermediate-value argument; the `OptimizeResult` record with its
  `success` flag is modelled explicitly where the code's handling of the
  flag matters.
* `numpy.isclose` with its default tolerances `rtol=1e-5`, `atol=1e-8` is
  modelled literally.
-/

open Real
open scoped Classical

noncomputable section
namespace PyCircStat2

/-- numpy.isclose with default tolerances: `|a - b| <= atol + rtol * |b|`. -/
def isclose (a b : ℝ) : Prop := |a - b| ≤ 1e-8 + 1e-5 * |b|

/-- scipy.special.i0, the modified Bessel function of order 0, modelled by its
integral representation `I0(k) = (1/pi) * int_0^pi exp(k cos t) dt`. -/
def i0 (kappa : ℝ) : ℝ := (1 / π) * ∫ t in (0:ℝ)..π, exp (kappa * cos t)

/-- scipy.special.i1, the modified Bessel function of order 1, modelled by its
integral representation. -/
def i1 (kappa : ℝ) : ℝ := (1 / π) * ∫ t in (0:ℝ)..π, exp (kappa * cos t) * cos t

/-- scipy.integrate.quad: returns the pair (integral estimate, absolute error
estimate); idealised as the exact interval integral with error estimate 0. -/
def quad (f : ℝ → ℝ) (a b : ℝ) : ℝ × ℝ := (∫ t in a..b, f t, 0)

/-- scipy.integrate.quad_vec: same contract as `quad`. -/
def quad_vec (f : ℝ → ℝ) (a b : ℝ) : ℝ × ℝ := (∫ t in a..b, f t, 0)

/-- scipy.optimize.OptimizeResult, restricted to the fields the code touches:
the solution array `x` and the convergence flag `success`. -/
structure OptimizeResult where
  x : ℝ
  success : Bool

/-! ## circularuniform_gen -/

/-- `circularuniform_gen._pdf`: the code returns `1 / np.pi`. -/
def circularuniform_pdf (_x : ℝ) : ℝ := 1 / π

/-- `circularuniform_gen._cdf`: `x / (2 * np.pi)`. -/
def circularuniform_cdf (x : ℝ) : ℝ := x / (2 * π)

/-! ## cardioid_gen -/

/-- `cardioid_gen._argcheck`: `0 <= rho <= 0.5 and 0 <= mu <= np.pi * 2`. -/
def cardioid_argcheck (rho mu : ℝ) : Prop :=
  (0 ≤ rho ∧ rho ≤ 0.5) ∧ (0 ≤ mu ∧ mu ≤ π * 2)

/-- `cardioid_gen._pdf`: `(1 + 2 * rho * np.cos(x - mu)) / 2.0 / np.pi`. -/
def cardioid_pdf (x rho mu : ℝ) : ℝ := (1 + 2 * rho * cos (x - mu)) / 2 / π

/-- `cardioid_gen._cdf`. -/
def cardioid_cdf (x rho mu : ℝ) : ℝ :=
  (x + 2 * rho * (sin (x - mu) + sin mu)) / (2 * π)

/-! ## cartwright_gen -/

/-- `cartwright_gen._argcheck`: `zeta > 0 and 0 <= mu <= 2 * np.pi`. -/
def cartwright_argcheck (zeta mu : ℝ) : Prop :=
  0 < zeta ∧ (0 ≤ mu ∧ mu ≤ 2 * π)

/-- `cartwright_gen._pdf`. -/
def cartwright_pdf (x zeta mu : ℝ) : ℝ :=
  (2 ^ ((-1 : ℝ) + 1 / zeta) * Real.Gamma (1 + 1 / zeta) ^ 2) *
    (1 + cos (x - mu)) ^ (1 / zeta) / (π * Real.Gamma (1 + 2 / zeta))

/-- `cartwright_gen._cdf`: per element, returns `quad(self._pdf, a=0, b=x, ...)`
(the full pair, no `[0]` applied). -/
def cartwright_cdf (x zeta mu : ℝ) : ℝ × ℝ :=
  quad (fun t => cartwright_pdf t zeta mu) 0 x

/-! ## wrapnorm_gen -/

/-- `wrapnorm_gen._argcheck`: `0 < rho <= 1 and 0 <= mu <= np.pi * 2`. -/
def wrapnorm_argcheck (rho mu : ℝ) : Prop :=
  (0 < rho ∧ rho ≤ 1) ∧ (0 ≤ mu ∧ mu ≤ π * 2)

/-- `wrapnorm_gen._pdf`: the truncated wrapping series, summed over the list
comprehension `[rho ** (p**2) * np.cos(p * (x - mu)) for p in range(1, 30)]`. -/
def wrapnorm_pdf (x rho mu : ℝ) : ℝ :=
  (1 + 2 * ((List.range' 1 29).map
      (fun (p : ℕ) => rho ^ (p ^ 2) * cos ((p : ℝ) * (x - mu)))).sum) / (2 * π)

/-- `wrapnorm_gen._cdf`: per element, the full `quad` pair. -/
def wrapnorm_cdf (x rho mu : ℝ) : ℝ × ℝ :=
  quad (fun t => wrapnorm_pdf t rho mu) 0 x

/-! ## wrapcauchy_gen -/

/-- `wrapcauchy_gen._argcheck`. -/
def wrapcauchy_argcheck (rho mu : ℝ) : Prop :=
  (0 < rho ∧ rho ≤ 1) ∧ (0 ≤ mu ∧ mu ≤ π * 2)

/-- `wrapcauchy_gen._pdf`. -/
def wrapcauchy_pdf (x rho mu : ℝ) : ℝ :=
  (1 - rho ^ 2) / (2 * π * (1 + rho ^ 2 - 2 * rho * cos (x - mu)))

/-- `wrapcauchy_gen._cdf`: per element, the full `quad` pair. -/
def wrapcauchy_cdf (x rho mu : ℝ) : ℝ × ℝ :=
  quad (fun t => wrapcauchy_pdf t rho mu) 0 x

/-! ## vonmises -/

/-- `vonmises._argcheck`: `kappa > 0 and 0 <= mu <= np.pi * 2`. -/
def vonmises_argcheck (kappa mu : ℝ) : Prop :=
  0 < kappa ∧ (0 ≤ mu ∧ mu ≤ π * 2)

/-- `vonmises._pdf`: `np.exp(kappa * np.cos(x - mu)) / (2 * np.pi * i0(kappa))`. -/
def vonmises_pdf (x kappa mu : ℝ) : ℝ :=
  exp (kappa * cos (x - mu)) / (2 * π * i0 kappa)

/-- `vonmises._cdf`: per element, the full `quad` pair. -/
def vonmises_cdf (x kappa mu : ℝ) : ℝ × ℝ :=
  quad (fun t => vonmises_pdf t kappa mu) 0 x

/-! ## jonespewsey_gen and helpers -/

/-- `jonespewsey_gen._argcheck`: `kappa >= 0`, `-inf <= psi <= inf` (always
true for a finite float, modelled by `True`), `0 <= mu <= np.pi * 2`. -/
def jonespewsey_argcheck (kappa psi mu : ℝ) : Prop :=
  0 ≤ kappa ∧ (psi = psi) ∧ (0 ≤ mu ∧ mu ≤ π * 2)

/-- `_kernel_jonespewsey`. -/
def _kernel_jonespewsey (x kappa psi mu : ℝ) : ℝ :=
  (Real.cosh (kappa * psi) + Real.sinh (kappa * psi) * cos (x - mu)) ^ (1 / psi) /
    (2 * π * Real.cosh (kappa * π))

/-- `_c_jonespewsey`: `quad_vec(_kernel_jonespewsey, a=-np.pi, b=np.pi, ...)[0]`. -/
def _c_jonespewsey (kappa psi mu : ℝ) : ℝ :=
  (quad_vec (fun x => _kernel_jonespewsey x kappa psi mu) (-π) π).1

/-- `jonespewsey_gen._pdf`: piecewise on `kappa < 0.001`, then on
`np.isclose(np.abs(psi), 0)`. -/
def jonespewsey_pdf (x kappa psi mu : ℝ) : ℝ :=
  if kappa < 0.001 then 1 / (2 * π)
  else if isclose |psi| 0 then 1 / (2 * π * i0 kappa) * exp (kappa * cos (x - mu))
  else _kernel_jonespewsey x kappa psi mu / _c_jonespewsey kappa psi mu

/-! ## vonmises_ext_gen and helpers -/

/-- `vonmises_ext_gen._argcheck`. -/
def vonmises_ext_argcheck (kappa nu mu : ℝ) : Prop :=
  0 ≤ kappa ∧ (-1 ≤ nu ∧ nu ≤ 1) ∧ (0 ≤ mu ∧ mu ≤ π * 2)

/-- `_kernel_vmext`. -/
def _kernel_vmext (x kappa nu mu : ℝ) : ℝ :=
  exp (kappa * cos (x - mu + nu * sin (x - mu)))

/-- `_c_vmext`: `1 / quad_vec(_kernel_vmext, a=-np.pi, b=np.pi, ...)[0]`. -/
def _c_vmext (kappa nu mu : ℝ) : ℝ :=
  1 / (quad_vec (fun x => _kernel_vmext x kappa nu mu) (-π) π).1

/-- `vonmises_ext_gen._pdf`. -/
def vonmises_ext_pdf (x kappa nu mu : ℝ) : ℝ :=
  _c_vmext kappa nu mu * _kernel_vmext x kappa nu mu

/-! ## jonespewsey_sineskewed_gen -/

/-- The local `kernel` closure of `jonespewsey_sineskewed_gen._pdf`
(the Jones-Pewsey kernel at `mu = 0`). -/
def _kernel_sineskewed (x kappa psi : ℝ) : ℝ :=
  (Real.cosh (kappa * psi) + Real.sinh (kappa * psi) * cos x) ^ (1 / psi) /
    (2 * π * Real.cosh (kappa * π))

/-- `jonespewsey_sineskewed_gen._pdf`. -/
def jonespewsey_sineskewed_pdf (x kappa psi lmda : ℝ) : ℝ :=
  if kappa < 0.001 then 1 / (2 * π) * (1 + lmda * sin x)
  else if isclose |psi| 0 then
    1 / (2 * π * i0 kappa) * exp (kappa * cos x) * (1 + lmda * sin x)
  else
    (1 + lmda * sin x) * _kernel_sineskewed x kappa psi /
      (quad_vec (fun t => _kernel_sineskewed t kappa psi) (-π) π).1

/-! ## jonespewsey_asymext_gen -/

/-- The local `kernel` closure of the `psi ~ 0` branch of
`jonespewsey_asymext_gen._pdf`. -/
def _kernel_asymext0 (x kappa nu : ℝ) : ℝ := exp (kappa * cos (x + nu * cos x))

/-- The local `kernel` closure of the general branch of
`jonespewsey_asymext_gen._pdf`. -/
def _kernel_asymext (x kappa psi nu : ℝ) : ℝ :=
  (Real.cosh (kappa * psi) + Real.sinh (kappa * psi) * cos (x + nu * cos x)) ^ (1 / psi)

/-- `jonespewsey_asymext_gen._pdf`. -/
def jonespewsey_asymext_pdf (x kappa psi nu : ℝ) : ℝ :=
  if isclose |psi| 0 then
    _kernel_asymext0 x kappa nu / (quad_vec (fun t => _kernel_asymext0 t kappa nu) (-π) π).1
  else
    _kernel_asymext x kappa psi nu /
      (quad_vec (fun t => _kernel_asymext t kappa psi nu) (-π) π).1

/-! ## inverse_batschelet_gen and helpers

`_tnu` solves `z - nu*(1 + cos z) = x` with `scipy.optimize.root`; `Tnu` is
the function whose root is sought.  The solver is idealised as the exact
root, which exists by the intermediate value theorem. -/

/-- The function `z ↦ z - nu*(1 + cos z)` inverted by `_tnu`. -/
def Tnu (nu z : ℝ) : ℝ := z - nu * (1 + cos z)

/-- Existence of a root of `Tnu nu . = x`, by the intermediate value theorem
(stated as a `def` because `rootT` elaborates it). -/
def Tnu_surj (nu x : ℝ) : ∃ z, Tnu nu z = x := by
  have hcont : ContinuousOn (Tnu nu) (Set.Icc (x - 2 * |nu|) (x + 2 * |nu|)) := by
    apply Continuous.continuousOn
    unfold Tnu
    fun_prop
  have hle : x - 2 * |nu| ≤ x + 2 * |nu| := by
    have := abs_nonneg nu
    linarith
  have h1 : Tnu nu (x - 2 * |nu|) ≤ x := by
    unfold Tnu
    have h0 : 0 ≤ 1 + cos (x - 2 * |nu|) := by
      linarith [Real.neg_one_le_cos (x - 2 * |nu|)]
    have h2 : 1 + cos (x - 2 * |nu|) ≤ 2 := by
      linarith [Real.cos_le_one (x - 2 * |nu|)]
    nlinarith [neg_abs_le nu, abs_nonneg nu,
      mul_nonneg (show (0:ℝ) ≤ nu + |nu| by linarith [neg_abs_le nu]) h0,
      mul_nonneg (show (0:ℝ) ≤ 2 - (1 + cos (x - 2 * |nu|)) by linarith) (abs_nonneg nu)]
  have h2 : x ≤ Tnu nu (x + 2 * |nu|) := by
    unfold Tnu
    have h0 : 0 ≤ 1 + cos (x + 2 * |nu|) := by
      linarith [Real.neg_one_le_cos (x + 2 * |nu|)]
    have h3 : 1 + cos (x + 2 * |nu|) ≤ 2 := by
      linarith [Real.cos_le_one (x + 2 * |nu|)]
    nlinarith [le_abs_self nu, abs_nonneg nu,
      mul_nonneg (show (0:ℝ) ≤ |nu| - nu by linarith [le_abs_self nu]) h0,
      mul_nonneg (show (0:ℝ) ≤ 2 - (1 + cos (x + 2 * |nu|)) by linarith) (abs_nonneg nu)]
  have hx : x ∈ Set.Icc (Tnu nu (x - 2 * |nu|)) (Tnu nu (x + 2 * |nu|)) := ⟨h1, h2⟩
  obtain ⟨z, _, hz⟩ := intermediate_value_Icc hle hcont hx
  exact ⟨z, hz⟩

/-- The exact root of `Tnu nu . = x` (idealisation of the `scipy` solve). -/
def rootT (nu x : ℝ) : ℝ := Classical.choose (Tnu_surj nu x)

/-- `_tnu`: solve, then wrap results above `pi` by one subtraction of `2 pi`
(`y[y > np.pi] -= 2 * np.pi`). -/
def _tnu (x nu : ℝ) : ℝ :=
  if rootT nu x > π then rootT nu x - 2 * π else rootT nu x

/-- The post-processing `_tnu` applies to the raw solver result: only the
field `x` of the `OptimizeResult` is read; `success` is never consulted. -/
def tnu_from_result (r : OptimizeResult) : ℝ :=
  if r.x > π then r.x - 2 * π else r.x

/-- The function `w ↦ w - 0.5*(1 + lmbd)*sin w` inverted by `_slmbdinv`. -/
def Slm (lmbd w : ℝ) : ℝ := w - 0.5 * (1 + lmbd) * sin w

/-- Existence of a root of `Slm lmbd . = x`, by the intermediate value
theorem. -/
def Slm_surj (lmbd x : ℝ) : ∃ w, Slm lmbd w = x := by
  have hcont : ContinuousOn (Slm lmbd)
      (Set.Icc (x - |0.5 * (1 + lmbd)|) (x + |0.5 * (1 + lmbd)|)) := by
    apply Continuous.continuousOn
    unfold Slm
    fun_prop
  have hle : x - |0.5 * (1 + lmbd)| ≤ x + |0.5 * (1 + lmbd)| := by
    have := abs_nonneg (0.5 * (1 + lmbd))
    linarith
  have hbound : ∀ w : ℝ, |0.5 * (1 + lmbd) * sin w| ≤ |0.5 * (1 + lmbd)| := by
    intro w
    rw [abs_mul]
    have := Real.abs_sin_le_one w
    nlinarith [abs_nonneg (0.5 * (1 + lmbd))]
  have h1 : Slm lmbd (x - |0.5 * (1 + lmbd)|) ≤ x := by
    unfold Slm
    have := hbound (x - |0.5 * (1 + lmbd)|)
    have := neg_abs_le (0.5 * (1 + lmbd) * sin (x - |0.5 * (1 + lmbd)|))
    linarith
  have h2 : x ≤ Slm lmbd (x + |0.5 * (1 + lmbd)|) := by
    unfold Slm
    have := hbound (x + |0.5 * (1 + lmbd)|)
    have := le_abs_self (0.5 * (1 + lmbd) * sin (x + |0.5 * (1 + lmbd)|))
    linarith
  have hx : x ∈ Set.Icc (Slm lmbd (x - |0.5 * (1 + lmbd)|))
      (Slm lmbd (x + |0.5 * (1 + lmbd)|)) := ⟨h1, h2⟩
  obtain ⟨w, _, hw⟩ := intermediate_value_Icc hle hcont hx
  exact ⟨w, hw⟩

/-- The exact root of `Slm lmbd . = x` (idealisation of the `scipy` solve). -/
def rootS (lmbd x : ℝ) : ℝ := Classical.choose (Slm_surj lmbd x)

/-- `_slmbdinv`: identity when `np.isclose(lmbd, -1)`, otherwise the solve. -/
def _slmbdinv (x lmbd : ℝ) : ℝ :=
  if isclose lmbd (-1) then x else rootS lmbd x

/-- The post-processing `_slmbdinv` applies to the raw solver result in its
general branch: only the field `x` is read; `success` is never consulted. -/
def slmbdinv_from_result (x lmbd : ℝ) (r : OptimizeResult) : ℝ :=
  if isclose lmbd (-1) then x else r.x

/-- `_A1`: `i1(kappa) / i0(kappa)`. -/
def _A1 (kappa : ℝ) : ℝ := i1 kappa / i0 kappa

/-- `inverse_batschelet_gen._argcheck`. -/
def inverse_batschelet_argcheck (kappa nu lmbd : ℝ) : Prop :=
  0 ≤ kappa ∧ (-1 ≤ nu ∧ nu ≤ 1) ∧ (-1 ≤ lmbd ∧ lmbd ≤ 1)

/-- `_c_invbatschelet`, with the code's local names `mult`, `K`, `con1`,
`con2`, `intval` inlined. -/
def _c_invbatschelet (kappa lmbd : ℝ) : ℝ :=
  if isclose lmbd 1 then 1 / (2 * π * i0 kappa * (1 - _A1 kappa))
  else
    1 / (2 * π * i0 kappa *
      ((1 + lmbd) / (1 - lmbd) -
        (2 * lmbd) / ((1 - lmbd) * (2 * π * i0 kappa)) *
          (quad_vec (fun x => exp (kappa * cos (x - (1 - lmbd) * sin x / 2))) (-π) π).1))

/-- `inverse_batschelet_gen._pdf`, with the code's local names `arg1`,
`arg2`, `c`, `con1`, `con2` inlined. -/
def inverse_batschelet_pdf (x kappa nu lmbd : ℝ) : ℝ :=
  if isclose lmbd (-1) then
    _c_invbatschelet kappa lmbd * exp (kappa * cos (_tnu x nu - sin (_tnu x nu)))
  else
    _c_invbatschelet kappa lmbd *
      exp (kappa * cos ((1 - lmbd) / (1 + lmbd) * _tnu x nu +
        (2 * lmbd) / (1 + lmbd) * _slmbdinv (_tnu x nu) lmbd))

/-! ## Helper lemmas about the implicit transforms -/

/-- The sine function moves every nonzero point strictly closer to zero. -/
theorem abs_sin_lt_abs (t : ℝ) (ht : t ≠ 0) : |sin t| < |t| := by
  have key : ∀ u : ℝ, 0 < u → |sin u| < u := by
    intro u hu
    have h1 : sin u < u := Real.sin_lt hu
    have h2 : -u < sin u := by
      rcases le_or_lt u π with hc | hc
      · have := Real.sin_nonneg_of_nonneg_of_le_pi (le_of_lt hu) hc
        linarith
      · have := Real.neg_one_le_sin u
        have := Real.pi_gt_three
        linarith
    exact abs_lt.mpr ⟨h2, h1⟩
  rcases lt_trichotomy t 0 with h | h | h
  · have hk := key (-t) (by linarith)
    rw [Real.sin_neg, abs_neg] at hk
    rwa [abs_of_neg h]
  · exact absurd h ht
  · have hk := key t h
    rwa [abs_of_pos h]

/-- Strict 1-Lipschitz bound for the cosine at distinct points. -/
theorem abs_cos_sub_cos_lt (a b : ℝ) (hab : a ≠ b) : |cos a - cos b| < |a - b| := by
  have h2 : (a - b) / 2 ≠ 0 := by
    intro h
    apply hab
    have : a - b = 0 := by linarith
    linarith
  have hs := abs_sin_lt_abs ((a - b) / 2) h2
  have hbound : |sin ((a + b) / 2)| ≤ 1 := Real.abs_sin_le_one _
  calc |cos a - cos b| = |(-2) * sin ((a + b) / 2) * sin ((a - b) / 2)| := by
        rw [Real.cos_sub_cos]
    _ = 2 * |sin ((a + b) / 2)| * |sin ((a - b) / 2)| := by
        rw [abs_mul, abs_mul]
        norm_num
    _ ≤ 2 * 1 * |sin ((a - b) / 2)| := by gcongr
    _ = 2 * |sin ((a - b) / 2)| := by ring
    _ < 2 * |(a - b) / 2| := by linarith
    _ = |a - b| := by
        rw [abs_div, abs_two]
        ring

/-- Strict 1-Lipschitz bound for the sine at distinct points. -/
theorem abs_sin_sub_sin_lt (a b : ℝ) (hab : a ≠ b) : |sin a - sin b| < |a - b| := by
  have h2 : (a - b) / 2 ≠ 0 := by
    intro h
    apply hab
    have : a - b = 0 := by linarith
    linarith
  have hs := abs_sin_lt_abs ((a - b) / 2) h2
  have hbound : |cos ((a + b) / 2)| ≤ 1 := Real.abs_cos_le_one _
  calc |sin a - sin b| = |2 * sin ((a - b) / 2) * cos ((a + b) / 2)| := by
        rw [Real.sin_sub_sin]
    _ = 2 * |sin ((a - b) / 2)| * |cos ((a + b) / 2)| := by
        rw [abs_mul, abs_mul]
        norm_num
    _ ≤ 2 * |sin ((a - b) / 2)| * 1 := by
        gcongr
    _ = 2 * |sin ((a - b) / 2)| := by ring
    _ < 2 * |(a - b) / 2| := by linarith
    _ = |a - b| := by
        rw [abs_div, abs_two]
        ring

/-- A function `z - c * g z` with `|c| <= 1` and `g` strictly 1-Lipschitz is
strictly monotone. -/
theorem strictMono_sub_mul (c : ℝ) (hc : |c| ≤ 1) (g : ℝ → ℝ)
    (hg : ∀ a b, a ≠ b → |g a - g b| < |a - b|) :
    StrictMono (fun z => z - c * g z) := by
  intro a b hab
  simp only
  have h1 : |g b - g a| < |b - a| := hg b a (ne_of_gt hab)
  have h2 : c * (g b - g a) ≤ |c * (g b - g a)| := le_abs_self _
  have h3 : |c * (g b - g a)| = |c| * |g b - g a| := abs_mul _ _
  have h4 : |c| * |g b - g a| ≤ 1 * |g b - g a| :=
    mul_le_mul_of_nonneg_right hc (abs_nonneg _)
  have h5 : |b - a| = b - a := abs_of_pos (by linarith)
  have h6 : c * (g b - g a) = c * g b - c * g a := by ring
  linarith

/-- `Tnu nu` is strictly monotone for `|nu| <= 1`. -/
theorem strictMono_Tnu (nu : ℝ) (h : |nu| ≤ 1) : StrictMono (Tnu nu) := by
  have hmain := strictMono_sub_mul nu h (fun z => 1 + cos z) (fun a b hab => by
    have := abs_cos_sub_cos_lt a b hab
    simpa using this)
  have heq : Tnu nu = fun z => z - nu * (1 + cos z) := rfl
  rw [heq]
  exact hmain

/-- `Slm lmbd` is strictly monotone for `-1 <= lmbd <= 1`. -/
theorem strictMono_Slm (lmbd : ℝ) (h1 : -1 ≤ lmbd) (h2 : lmbd ≤ 1) :
    StrictMono (Slm lmbd) := by
  have hc : |0.5 * (1 + lmbd)| ≤ 1 := by
    rw [abs_of_nonneg (by linarith)]
    linarith
  have hmain := strictMono_sub_mul (0.5 * (1 + lmbd)) hc sin abs_sin_sub_sin_lt
  have heq : Slm lmbd = fun w => w - 0.5 * (1 + lmbd) * sin w := rfl
  rw [heq]
  exact hmain

/-- The idealised solver output satisfies the equation it solves. -/
theorem rootT_spec (nu x : ℝ) : Tnu nu (rootT nu x) = x :=
  Classical.choose_spec (Tnu_surj nu x)

/-- The idealised solver output satisfies the equation it solves. -/
theorem rootS_spec (lmbd x : ℝ) : Slm lmbd (rootS lmbd x) = x :=
  Classical.choose_spec (Slm_surj lmbd x)

/-- Uniqueness of the root of `Tnu nu . = x` for `|nu| <= 1`. -/
theorem rootT_eq_of (nu x z : ℝ) (h : |nu| ≤ 1) (hz : Tnu nu z = x) :
    rootT nu x = z :=
  (strictMono_Tnu nu h).injective (by rw [rootT_spec, hz])

/-- The solver root is equivariant under the period shift `x ↦ x + 2 pi`. -/
theorem rootT_add_two_pi (nu x : ℝ) (h : |nu| ≤ 1) :
    rootT nu (x + 2 * π) = rootT nu x + 2 * π := by
  apply (strictMono_Tnu nu h).injective
  rw [rootT_spec]
  have hx := rootT_spec nu x
  unfold Tnu at hx ⊢
  rw [Real.cos_add_two_pi]
  linarith

/-- The solver root is equivariant under the period shift `x ↦ x + 2 pi`. -/
theorem rootS_add_two_pi (lmbd x : ℝ) (h1 : -1 ≤ lmbd) (h2 : lmbd ≤ 1) :
    rootS lmbd (x + 2 * π) = rootS lmbd x + 2 * π := by
  apply (strictMono_Slm lmbd h1 h2).injective
  rw [rootS_spec]
  have hx := rootS_spec lmbd x
  unfold Slm at hx ⊢
  rw [Real.sin_add_two_pi]
  linarith

/-- `_slmbdinv` is equivariant under the period shift of its angle input. -/
theorem slmbdinv_add_two_pi (a lmbd : ℝ) (h1 : -1 ≤ lmbd) (h2 : lmbd ≤ 1) :
    _slmbdinv (a + 2 * π) lmbd = _slmbdinv a lmbd + 2 * π := by
  unfold _slmbdinv
  by_cases hiso : isclose lmbd (-1)
  · rw [if_pos hiso, if_pos hiso]
  · rw [if_neg hiso, if_neg hiso]
    exact rootS_add_two_pi lmbd a h1 h2

/-- `_tnu` at `x + 2 pi` returns either the value at `x` or that value plus
`2 pi`, depending on where the root lands relative to the single wrap. -/
theorem tnu_cases (nu x : ℝ) (h : |nu| ≤ 1) :
    _tnu (x + 2 * π) nu = _tnu x nu ∨ _tnu (x + 2 * π) nu = _tnu x nu + 2 * π := by
  have hshift : rootT nu (x + 2 * π) = rootT nu x + 2 * π := rootT_add_two_pi nu x h
  have hπ := Real.pi_pos
  unfold _tnu
  rw [hshift]
  by_cases h1 : rootT nu x > π
  · right
    rw [if_pos h1, if_pos (show rootT nu x + 2 * π > π by linarith)]
    ring
  · by_cases h2 : rootT nu x > -π
    · left
      rw [if_pos (show rootT nu x + 2 * π > π by linarith), if_neg h1]
      ring
    · right
      push_neg at h2
      rw [if_neg (show ¬rootT nu x + 2 * π > π by push_neg; linarith), if_neg h1]

/-! ## Sum conversion for the wrapped-normal series -/

/-- The sum of a function mapped over `List.range' s n` is the corresponding
`Finset.range` sum. -/
theorem list_range'_map_sum (f : ℕ → ℝ) :
    ∀ n s : ℕ, ((List.range' s n).map f).sum = ∑ i ∈ Finset.range n, f (s + i) := by
  intro n
  induction n with
  | zero => intro s; simp
  | succ m ih =>
    intro s
    rw [List.range'_succ, List.map_cons, List.sum_cons, ih (s + 1),
      Finset.sum_range_succ']
    have h2 : ∑ i ∈ Finset.range m, f (s + 1 + i) =
        ∑ i ∈ Finset.range m, f (s + (i + 1)) :=
      Finset.sum_congr rfl (fun i _ => by
        have h : s + 1 + i = s + (i + 1) := by omega
        rw [h])
    rw [h2]
    have h3 : s + 0 = s := rfl
    rw [h3]
    ring

/-! ## Claim theorems -/

/-- C1 (divergence evidence): the numerically integrated cumulative functions
return the whole `quad` pair (integral estimate together with the error
estimate), because the code never extracts component `[0]`; they do not return
the integral alone. -/
theorem cdf_is_quad_pair (x zeta mu kappa : ℝ) :
    cartwright_cdf x zeta mu = (∫ t in (0:ℝ)..x, cartwright_pdf t zeta mu, (0:ℝ)) ∧
    vonmises_cdf x kappa mu = (∫ t in (0:ℝ)..x, vonmises_pdf t kappa mu, (0:ℝ)) :=
  ⟨rfl, rfl⟩

/-- C2 (divergence evidence): the circular uniform density returned by the code
is `1/pi`, which differs from `1/(2 pi)`, integrates to 2 over `[0, 2 pi]`,
and is inconsistent with the code's own cumulative `x/(2 pi)` reaching 1 at
`2 pi`. -/
theorem circularuniform_pdf_inconsistent :
    (∀ x : ℝ, circularuniform_pdf x = 1 / π) ∧
    circularuniform_pdf 0 ≠ 1 / (2 * π) ∧
    (∫ x in (0:ℝ)..(2 * π), circularuniform_pdf x) = 2 ∧
    circularuniform_cdf (2 * π) = 1 := by
  have hπ := Real.pi_pos
  refine ⟨fun x => rfl, ?_, ?_, ?_⟩
  · unfold circularuniform_pdf
    intro h
    rw [div_eq_div_iff (ne_of_gt hπ) (by positivity)] at h
    linarith
  · unfold circularuniform_pdf
    rw [intervalIntegral.integral_const, smul_eq_mul]
    field_simp
  · unfold circularuniform_cdf
    exact div_self (ne_of_gt Real.two_pi_pos)

/-- C8: the cardioid density equals `(1 + 2 rho cos(x - mu))/(2 pi)` for every
`(rho, mu)`; at `rho = 0.3`, `mu = 0` it equals `(1 + 0.6)/(2 pi)` (about
0.2546) at `x = 0` and `(1 - 0.6)/(2 pi)` (about 0.0637) at `x = pi`. -/
theorem cardioid_density_formula_and_values :
    (∀ x rho mu : ℝ,
      cardioid_pdf x rho mu = (1 + 2 * rho * cos (x - mu)) / (2 * π)) ∧
    cardioid_pdf 0 0.3 0 = (1 + 0.6) / (2 * π) ∧
    cardioid_pdf π 0.3 0 = (1 - 0.6) / (2 * π) ∧
    |cardioid_pdf 0 0.3 0 - 0.2546| < 1e-3 ∧
    |cardioid_pdf π 0.3 0 - 0.0637| < 1e-3 := by
  have hπ := Real.pi_pos
  have hd4 := Real.pi_gt_d4
  have hl4 := Real.pi_lt_d4
  have hgen : ∀ x rho mu : ℝ,
      cardioid_pdf x rho mu = (1 + 2 * rho * cos (x - mu)) / (2 * π) := by
    intro x rho mu
    unfold cardioid_pdf
    ring
  have h0 : cardioid_pdf 0 0.3 0 = (1 + 0.6) / (2 * π) := by
    rw [hgen]
    norm_num [Real.cos_zero]
  have hp : cardioid_pdf π 0.3 0 = (1 - 0.6) / (2 * π) := by
    rw [hgen]
    norm_num [Real.cos_pi]
  refine ⟨hgen, h0, hp, ?_, ?_⟩
  · rw [h0, abs_lt]
    constructor
    · have hlo : (0.2536 : ℝ) < (1 + 0.6) / (2 * π) := by
        rw [lt_div_iff₀ (by linarith)]
        nlinarith
      linarith
    · have hhi : (1 + 0.6 : ℝ) / (2 * π) < 0.2556 := by
        rw [div_lt_iff₀ (by linarith)]
        nlinarith
      linarith
  · rw [hp, abs_lt]
    constructor
    · have hlo : (0.0627 : ℝ) < (1 - 0.6) / (2 * π) := by
        rw [lt_div_iff₀ (by linarith)]
        nlinarith
      linarith
    · have hhi : (1 - 0.6 : ℝ) / (2 * π) < 0.0647 := by
        rw [div_lt_iff₀ (by linarith)]
        nlinarith
      linarith

/-- C9: every location-bearing argument validator accepts `mu` only inside
`[0, 2 pi]`. -/
theorem argcheck_requires_mu_in_range (rho mu zeta kappa psi nu : ℝ) :
    (cardioid_argcheck rho mu → 0 ≤ mu ∧ mu ≤ 2 * π) ∧
    (cartwright_argcheck zeta mu → 0 ≤ mu ∧ mu ≤ 2 * π) ∧
    (wrapnorm_argcheck rho mu → 0 ≤ mu ∧ mu ≤ 2 * π) ∧
    (wrapcauchy_argcheck rho mu → 0 ≤ mu ∧ mu ≤ 2 * π) ∧
    (vonmises_argcheck kappa mu → 0 ≤ mu ∧ mu ≤ 2 * π) ∧
    (jonespewsey_argcheck kappa psi mu → 0 ≤ mu ∧ mu ≤ 2 * π) ∧
    (vonmises_ext_argcheck kappa nu mu → 0 ≤ mu ∧ mu ≤ 2 * π) := by
  unfold cardioid_argcheck cartwright_argcheck wrapnorm_argcheck
    wrapcauchy_argcheck vonmises_argcheck jonespewsey_argcheck
    vonmises_ext_argcheck
  refine ⟨fun h => ⟨h.2.1, by linarith [h.2.2]⟩,
    fun h => ⟨h.2.1, h.2.2⟩,
    fun h => ⟨h.2.1, by linarith [h.2.2]⟩,
    fun h => ⟨h.2.1, by linarith [h.2.2]⟩,
    fun h => ⟨h.2.1, by linarith [h.2.2]⟩,
    fun h => ⟨h.2.2.1, by linarith [h.2.2.2]⟩,
    fun h => ⟨h.2.2.1, by linarith [h.2.2.2]⟩⟩

/-- C9 witness: instantiation at concrete in-range parameters. -/
theorem argcheck_requires_mu_in_range_witness : 0 ≤ (1:ℝ) ∧ (1:ℝ) ≤ 2 * π :=
  (argcheck_requires_mu_in_range 0.3 1 1 1 0 0).1
    ⟨⟨by norm_num, by norm_num⟩,
     ⟨by norm_num, by nlinarith [Real.pi_gt_three]⟩⟩

/-- C10: the wrapped normal density is the wrapping series truncated at
exactly 29 terms, `p = 1` to `29`. -/
theorem wrapnorm_pdf_truncated_series (x rho mu : ℝ) :
    wrapnorm_pdf x rho mu =
      (1 + 2 * ∑ p ∈ Finset.Icc (1:ℕ) 29,
        rho ^ (p ^ 2) * cos ((p : ℝ) * (x - mu))) / (2 * π) := by
  unfold wrapnorm_pdf
  rw [list_range'_map_sum]
  have hconv : ∑ p ∈ Finset.Icc (1:ℕ) 29,
      rho ^ (p ^ 2) * cos ((p : ℝ) * (x - mu)) =
      ∑ i ∈ Finset.range 29,
        rho ^ ((1 + i) ^ 2) * cos (((1 + i : ℕ) : ℝ) * (x - mu)) := by
    rw [← Nat.Ico_succ_right, Finset.sum_Ico_eq_sum_range]
  rw [hconv]

/-- C4: the Jones-Pewsey density is selected piecewise: uniform `1/(2 pi)`
whenever `kappa < 0.001` (regardless of `psi`); otherwise the von Mises limit
form when `|psi|` is close to 0; otherwise the general kernel divided by its
numerically integrated normalizing constant. -/
theorem jonespewsey_pdf_piecewise (x kappa psi mu : ℝ) :
    (kappa < 0.001 → jonespewsey_pdf x kappa psi mu = 1 / (2 * π)) ∧
    (¬kappa < 0.001 → isclose |psi| 0 →
      jonespewsey_pdf x kappa psi mu =
        exp (kappa * cos (x - mu)) / (2 * π * i0 kappa)) ∧
    (¬kappa < 0.001 → ¬isclose |psi| 0 →
      jonespewsey_pdf x kappa psi mu =
        (Real.cosh (kappa * psi) + Real.sinh (kappa * psi) * cos (x - mu)) ^ (1 / psi) /
          ∫ t in (-π)..π,
            (Real.cosh (kappa * psi) + Real.sinh (kappa * psi) * cos (t - mu)) ^ (1 / psi)) := by
  refine ⟨?_, ?_, ?_⟩
  · intro h
    unfold jonespewsey_pdf
    rw [if_pos h]
  · intro h1 h2
    unfold jonespewsey_pdf
    rw [if_neg h1, if_pos h2]
    ring
  · intro h1 h2
    unfold jonespewsey_pdf
    rw [if_neg h1, if_neg h2]
    have hD : (2 * π * Real.cosh (kappa * π)) ≠ 0 := by
      have h3 := Real.cosh_pos (kappa * π)
      have h4 := Real.pi_pos
      positivity
    unfold _c_jonespewsey quad_vec _kernel_jonespewsey
    rw [intervalIntegral.integral_div, div_div_div_comm, div_self hD, div_one]

/-- C4 witness: the von Mises limit branch at `kappa = 1`, `psi = 0`. -/
theorem jonespewsey_pdf_piecewise_witness :
    jonespewsey_pdf 0 1 0 0 = exp (1 * cos (0 - 0)) / (2 * π * i0 1) :=
  (jonespewsey_pdf_piecewise 0 1 0 0).2.1 (by norm_num) (by norm_num [isclose])

/-- C7: the inverse Batschelet normalizing constant is the closed form
`1/(2 pi I0(k) (1 - I1(k)/I0(k)))` when `lmbd` is close to 1, and otherwise is
built from one numerical integral of `exp(k cos(x - (1 - lmbd) sin(x)/2))`
over a full period, combined algebraically with `lmbd` and `kappa`. -/
theorem c_invbatschelet_formula (kappa lmbd : ℝ) :
    (isclose lmbd 1 → _c_invbatschelet kappa lmbd =
      1 / (2 * π * i0 kappa * (1 - i1 kappa / i0 kappa))) ∧
    (¬isclose lmbd 1 → _c_invbatschelet kappa lmbd =
      1 / (2 * π * i0 kappa *
        ((1 + lmbd) / (1 - lmbd) -
          (2 * lmbd) / ((1 - lmbd) * (2 * π * i0 kappa)) *
            ∫ t in (-π)..π, exp (kappa * cos (t - (1 - lmbd) * sin t / 2))))) := by
  constructor
  · intro h
    unfold _c_invbatschelet _A1
    rw [if_pos h]
  · intro h
    unfold _c_invbatschelet
    rw [if_neg h]
    rfl

/-- C7 witness: the general branch at `kappa = 1`, `lmbd = 0`. -/
theorem c_invbatschelet_formula_witness :
    _c_invbatschelet 1 0 =
      1 / (2 * π * i0 1 *
        ((1 + 0) / (1 - 0) -
          (2 * 0) / ((1 - 0) * (2 * π * i0 1)) *
            ∫ t in (-π)..π, exp (1 * cos (t - (1 - 0) * sin t / 2)))) :=
  (c_invbatschelet_formula 1 0).2 (by norm_num [isclose])

/-- C6 (divergence evidence): the inverse Batschelet solvers read only the
`x` field of the solver result; the `success` flag has no influence on the
returned value, so a non-converged solve produces the same plain number as a
converged one and no error or warning can surface. -/
theorem solver_success_flag_ignored (x nu lmbd : ℝ) (b b' : Bool) :
    tnu_from_result ⟨rootT nu x, b⟩ = tnu_from_result ⟨rootT nu x, b'⟩ ∧
    tnu_from_result ⟨rootT nu x, b⟩ = _tnu x nu ∧
    slmbdinv_from_result x lmbd ⟨rootS lmbd x, b⟩ =
      slmbdinv_from_result x lmbd ⟨rootS lmbd x, b'⟩ ∧
    slmbdinv_from_result x lmbd ⟨rootS lmbd x, b⟩ = _slmbdinv x lmbd :=
  ⟨rfl, rfl, rfl, rfl⟩

/-- C5 (amended): `_tnu` returns the exact root of `z - nu (1 + cos z) = x`
(unique for `|nu| <= 1`), reduced by `2 pi` exactly once when it exceeds
`pi`; the result lies in `(-pi, pi]` whenever the unwrapped root lies in
`(-pi, 3 pi]`. -/
theorem tnu_root_and_single_wrap (x nu : ℝ) (h : |nu| ≤ 1) :
    (rootT nu x - nu * (1 + cos (rootT nu x)) = x) ∧
    (∀ z, z - nu * (1 + cos z) = x → z = rootT nu x) ∧
    (π < rootT nu x → _tnu x nu = rootT nu x - 2 * π) ∧
    (rootT nu x ≤ π → _tnu x nu = rootT nu x) ∧
    (-π < rootT nu x → rootT nu x ≤ 3 * π → -π < _tnu x nu ∧ _tnu x nu ≤ π) := by
  have hπ := Real.pi_pos
  refine ⟨rootT_spec nu x, ?_, ?_, ?_, ?_⟩
  · intro z hz
    apply (strictMono_Tnu nu h).injective
    rw [rootT_spec]
    exact hz
  · intro h1
    unfold _tnu
    rw [if_pos h1]
  · intro h1
    unfold _tnu
    rw [if_neg (not_lt.mpr h1)]
  · intro h1 h2
    unfold _tnu
    by_cases hb : rootT nu x > π
    · rw [if_pos hb]
      constructor <;> linarith
    · rw [if_neg hb]
      push_neg at hb
      exact ⟨h1, hb⟩

/-- C5 witness: at `nu = 0`, `x = 1` the returned root solves the equation. -/
theorem tnu_root_and_single_wrap_witness :
    rootT 0 1 - 0 * (1 + cos (rootT 0 1)) = 1 :=
  (tnu_root_and_single_wrap 1 0 (by norm_num)).1

/-- C5 counterexample: at `x = 4 pi`, `nu = 0` the root is `4 pi`, the single
wrap leaves `2 pi`, and the returned value is not in `(-pi, pi]`. -/
theorem tnu_wrap_leaves_interval : _tnu (4 * π) 0 ∉ Set.Ioc (-π) π := by
  have hπ := Real.pi_pos
  have h0 : rootT 0 (4 * π) = 4 * π :=
    rootT_eq_of 0 (4 * π) (4 * π) (by norm_num) (by unfold Tnu; ring)
  unfold _tnu
  rw [h0, if_pos (show (4:ℝ) * π > π by linarith)]
  rintro ⟨-, h2⟩
  linarith

/-! ## Periodicity of every implemented density -/

theorem circularuniform_pdf_periodic (x : ℝ) :
    circularuniform_pdf (x + 2 * π) = circularuniform_pdf x := rfl

theorem cardioid_pdf_periodic (x rho mu : ℝ) :
    cardioid_pdf (x + 2 * π) rho mu = cardioid_pdf x rho mu := by
  unfold cardioid_pdf
  rw [show x + 2 * π - mu = (x - mu) + 2 * π from by ring, Real.cos_add_two_pi]

theorem cartwright_pdf_periodic (x zeta mu : ℝ) :
    cartwright_pdf (x + 2 * π) zeta mu = cartwright_pdf x zeta mu := by
  unfold cartwright_pdf
  rw [show x + 2 * π - mu = (x - mu) + 2 * π from by ring, Real.cos_add_two_pi]

theorem wrapnorm_pdf_periodic (x rho mu : ℝ) :
    wrapnorm_pdf (x + 2 * π) rho mu = wrapnorm_pdf x rho mu := by
  unfold wrapnorm_pdf
  have hfun : (fun (p : ℕ) => rho ^ (p ^ 2) * cos ((p : ℝ) * (x + 2 * π - mu))) =
      (fun (p : ℕ) => rho ^ (p ^ 2) * cos ((p : ℝ) * (x - mu))) := by
    funext p
    rw [show (p : ℝ) * (x + 2 * π - mu) = (p : ℝ) * (x - mu) + (p : ℝ) * (2 * π)
        from by ring,
      Real.cos_add_nat_mul_two_pi]
  rw [hfun]

theorem wrapcauchy_pdf_periodic (x rho mu : ℝ) :
    wrapcauchy_pdf (x + 2 * π) rho mu = wrapcauchy_pdf x rho mu := by
  unfold wrapcauchy_pdf
  rw [show x + 2 * π - mu = (x - mu) + 2 * π from by ring, Real.cos_add_two_pi]

theorem vonmises_pdf_periodic (x kappa mu : ℝ) :
    vonmises_pdf (x + 2 * π) kappa mu = vonmises_pdf x kappa mu := by
  unfold vonmises_pdf
  rw [show x + 2 * π - mu = (x - mu) + 2 * π from by ring, Real.cos_add_two_pi]

theorem jonespewsey_pdf_periodic (x kappa psi mu : ℝ) :
    jonespewsey_pdf (x + 2 * π) kappa psi mu = jonespewsey_pdf x kappa psi mu := by
  unfold jonespewsey_pdf
  split_ifs with h1 h2
  · rfl
  · rw [show x + 2 * π - mu = (x - mu) + 2 * π from by ring, Real.cos_add_two_pi]
  · unfold _kernel_jonespewsey
    rw [show x + 2 * π - mu = (x - mu) + 2 * π from by ring, Real.cos_add_two_pi]

theorem vonmises_ext_pdf_periodic (x kappa nu mu : ℝ) :
    vonmises_ext_pdf (x + 2 * π) kappa nu mu = vonmises_ext_pdf x kappa nu mu := by
  unfold vonmises_ext_pdf _kernel_vmext
  rw [show x + 2 * π - mu = (x - mu) + 2 * π from by ring, Real.sin_add_two_pi]
  rw [show (x - mu) + 2 * π + nu * sin (x - mu) =
      ((x - mu) + nu * sin (x - mu)) + 2 * π from by ring,
    Real.cos_add_two_pi]

theorem jonespewsey_sineskewed_pdf_periodic (x kappa psi lmda : ℝ) :
    jonespewsey_sineskewed_pdf (x + 2 * π) kappa psi lmda =
      jonespewsey_sineskewed_pdf x kappa psi lmda := by
  unfold jonespewsey_sineskewed_pdf
  split_ifs with h1 h2
  · rw [Real.sin_add_two_pi]
  · rw [Real.sin_add_two_pi, Real.cos_add_two_pi]
  · unfold _kernel_sineskewed
    rw [Real.sin_add_two_pi, Real.cos_add_two_pi]

theorem jonespewsey_asymext_pdf_periodic (x kappa psi nu : ℝ) :
    jonespewsey_asymext_pdf (x + 2 * π) kappa psi nu =
      jonespewsey_asymext_pdf x kappa psi nu := by
  unfold jonespewsey_asymext_pdf
  split_ifs with h1
  · unfold _kernel_asymext0
    rw [Real.cos_add_two_pi]
    rw [show x + 2 * π + nu * cos x = (x + nu * cos x) + 2 * π from by ring,
      Real.cos_add_two_pi]
  · unfold _kernel_asymext
    rw [Real.cos_add_two_pi]
    rw [show x + 2 * π + nu * cos x = (x + nu * cos x) + 2 * π from by ring,
      Real.cos_add_two_pi]

theorem inverse_batschelet_pdf_periodic (x kappa nu lmbd : ℝ) (hnu : |nu| ≤ 1)
    (hl1 : -1 ≤ lmbd) (hl2 : lmbd ≤ 1) :
    inverse_batschelet_pdf (x + 2 * π) kappa nu lmbd =
      inverse_batschelet_pdf x kappa nu lmbd := by
  rcases tnu_cases nu x hnu with hc | hc
  · unfold inverse_batschelet_pdf
    rw [hc]
  · unfold inverse_batschelet_pdf
    rw [hc]
    by_cases hiso : isclose lmbd (-1)
    · rw [if_pos hiso, if_pos hiso]
      rw [Real.sin_add_two_pi]
      rw [show _tnu x nu + 2 * π - sin (_tnu x nu) =
          (_tnu x nu - sin (_tnu x nu)) + 2 * π from by ring,
        Real.cos_add_two_pi]
    · rw [if_neg hiso, if_neg hiso]
      have hne : 1 + lmbd ≠ 0 := by
        intro h0
        apply hiso
        have hl : lmbd = -1 := by linarith
        rw [hl]
        unfold isclose
        norm_num
      rw [slmbdinv_add_two_pi (_tnu x nu) lmbd hl1 hl2]
      have hsum : (1 - lmbd) / (1 + lmbd) + (2 * lmbd) / (1 + lmbd) = 1 := by
        rw [div_add_div_same, show 1 - lmbd + 2 * lmbd = 1 + lmbd from by ring]
        exact div_self hne
      rw [show (1 - lmbd) / (1 + lmbd) * (_tnu x nu + 2 * π) +
            (2 * lmbd) / (1 + lmbd) * (_slmbdinv (_tnu x nu) lmbd + 2 * π) =
          ((1 - lmbd) / (1 + lmbd) * _tnu x nu +
            (2 * lmbd) / (1 + lmbd) * _slmbdinv (_tnu x nu) lmbd) +
          ((1 - lmbd) / (1 + lmbd) + (2 * lmbd) / (1 + lmbd)) * (2 * π)
          from by ring,
        hsum, one_mul, Real.cos_add_two_pi]

/-- C3: every implemented density satisfies `density(x + 2 pi) = density(x)`
for arbitrary real `x`, including the inverse Batschelet density computed
through the implicit root-finding transform (for shape parameters accepted by
its validator). -/
theorem pdf_periodic_all (x rho mu zeta kappa psi nu lmbd : ℝ)
    (hnu : |nu| ≤ 1) (hl1 : -1 ≤ lmbd) (hl2 : lmbd ≤ 1) :
    circularuniform_pdf (x + 2 * π) = circularuniform_pdf x ∧
    cardioid_pdf (x + 2 * π) rho mu = cardioid_pdf x rho mu ∧
    cartwright_pdf (x + 2 * π) zeta mu = cartwright_pdf x zeta mu ∧
    wrapnorm_pdf (x + 2 * π) rho mu = wrapnorm_pdf x rho mu ∧
    wrapcauchy_pdf (x + 2 * π) rho mu = wrapcauchy_pdf x rho mu ∧
    vonmises_pdf (x + 2 * π) kappa mu = vonmises_pdf x kappa mu ∧
    jonespewsey_pdf (x + 2 * π) kappa psi mu = jonespewsey_pdf x kappa psi mu ∧
    vonmises_ext_pdf (x + 2 * π) kappa nu mu = vonmises_ext_pdf x kappa nu mu ∧
    jonespewsey_sineskewed_pdf (x + 2 * π) kappa psi lmbd =
      jonespewsey_sineskewed_pdf x kappa psi lmbd ∧
    jonespewsey_asymext_pdf (x + 2 * π) kappa psi nu =
      jonespewsey_asymext_pdf x kappa psi nu ∧
    inverse_batschelet_pdf (x + 2 * π) kappa nu lmbd =
      inverse_batschelet_pdf x kappa nu lmbd :=
  ⟨circularuniform_pdf_periodic x,
   cardioid_pdf_periodic x rho mu,
   cartwright_pdf_periodic x zeta mu,
   wrapnorm_pdf_periodic x rho mu,
   wrapcauchy_pdf_periodic x rho mu,
   vonmises_pdf_periodic x kappa mu,
   jonespewsey_pdf_periodic x kappa psi mu,
   vonmises_ext_pdf_periodic x kappa nu mu,
   jonespewsey_sineskewed_pdf_periodic x kappa psi lmbd,
   jonespewsey_asymext_pdf_periodic x kappa psi nu,
   inverse_batschelet_pdf_periodic x kappa nu lmbd hnu hl1 hl2⟩

/-- C3 witness: periodicity of the inverse Batschelet density at concrete
parameters. -/
theorem pdf_periodic_all_witness :
    inverse_batschelet_pdf (0 + 2 * π) 1 0 0 = inverse_batschelet_pdf 0 1 0 0 :=
  (pdf_periodic_all 0 0 0 1 1 0 0 0 (by norm_num) (by norm_num)
    (by norm_num)).2.2.2.2.2.2.2.2.2.2

end PyCircStat2
end
